import Mathlib

/-!
Shallow embedding of the gtsam finite-difference differentiation engine
(`gtsam/base/numericalDerivative.h`) and of the analytic-derivative factor
(`gtsam/nonlinear/ExpressionFactor.h`), together with theorems settling the
specification claims about them.

Real-number arithmetic of the source is modelled over `ℚ` so that every
definition is executable and exact; all loops that mutate Eigen vectors or
`VectorValues` maps in place are embedded as state-passing recursions that
thread the mutated object through the iterations.
-/

set_option autoImplicit false

namespace Gtsam

/-- Keys naming variable slots (`gtsam::Key`). -/
abbrev Key := ℕ

/-- Dynamic numeric vectors (`Eigen::VectorXd`). -/
abbrev Vec := List ℚ

/-- Dynamic matrices (`Eigen::MatrixXd`), stored as the list of their columns,
matching the column-wise access `J.col(j)` used throughout the source. -/
abbrev Mat := List Vec

/-- Elementwise difference of two vectors (`left - right`). -/
def vecSub (a b : Vec) : Vec := List.zipWith (· - ·) a b

/-- Elementwise negation of a vector (`-e`). -/
def vecNeg (v : Vec) : Vec := v.map Neg.neg

/-- Zero vector of a given length (`Eigen::VectorXd::Zero(n)`). -/
def zeroVec (n : ℕ) : Vec := List.replicate n 0

/-- Zero matrix of `rows` rows and `cols` columns (`Matrix::Zero(rows, cols)`). -/
def zeroMat (rows cols : ℕ) : Mat := List.replicate cols (zeroVec rows)

/-- Key-ordered association list modelling `std::map<Key, ·>` and the
key-ordered gtsam containers (`Values`, `VectorValues`): insert-or-assign
keeping the keys strictly ascending. -/
def mapInsert {α : Type} (k : Key) (v : α) : List (Key × α) → List (Key × α)
  | [] => [(k, v)]
  | (k', v') :: rest =>
    if k < k' then (k, v) :: (k', v') :: rest
    else if k = k' then (k, v) :: rest
    else (k', v') :: mapInsert k v rest

/-- Lookup in a key-ordered association list. -/
def mapFind? {α : Type} (k : Key) : List (Key × α) → Option α
  | [] => none
  | (k', v') :: rest => if k = k' then some v' else mapFind? k rest

/-- Map from `Key` to tangent vector (`gtsam::VectorValues`), the delta map of
the linearization harness. -/
abbrev VectorValues := List (Key × Vec)

/-- Tangent dimension of one key as the harness reads it off the delta map
(`dX.dim(key)`). -/
def vvDim (dX : VectorValues) (k : Key) : ℕ := ((mapFind? k dX).getD []).length

/-! ### Charts (`DefaultChart<X>` of `gtsam/base/Manifold.h`)

A chart for a manifold type `X` of fixed tangent dimension `n`: a retraction
and its inverse, the local-coordinates map. -/

/-- Chart for a manifold-valued type: `retract` maps a base point and a tangent
vector to a nearby point, `localCoordinates` is its inverse. -/
structure DefaultChart (X : Type) (n : ℕ) where
  retract : X → (Fin n → ℚ) → X
  localCoordinates : X → X → (Fin n → ℚ)

/-- Trivial Euclidean chart on `Fin k → ℚ`: `retract(x, d) = x + d` and
`local(x, y) = y - x`. -/
def euclideanChart (k : ℕ) : DefaultChart (Fin k → ℚ) k :=
  { retract := fun x d i => x i + d i
    localCoordinates := fun x y i => y i - x i }

/-! ### `numericalGradient` (numericalDerivative.h lines 70-99)

The loop body mutates the single tangent vector `d` in place
(`d(j) = delta; ...; d(j) = -delta; ...; d(j) = 0`) and writes each component
of the result `g` in turn, so the embedding threads `d` and `g` through a
recursion over the coordinate indices. -/

/-- One pass of the `numericalGradient` loop over the remaining coordinate
indices, threading the perturbation vector `d` and the result `g`. -/
def numericalGradientLoop {X : Type} {n : ℕ} (c : DefaultChart X n) (h : X → ℚ)
    (x : X) (delta : ℚ) :
    List (Fin n) → (Fin n → ℚ) → (Fin n → ℚ) → (Fin n → ℚ)
  | [], _, g => g
  | j :: js, d, g =>
    let d1 := Function.update d j delta
    let hxplus := h (c.retract x d1)
    let d2 := Function.update d1 j (-delta)
    let hxmin := h (c.retract x d2)
    let d3 := Function.update d2 j 0
    numericalGradientLoop c h x delta js d3
      (Function.update g j ((hxplus - hxmin) * (1 / (2 * delta))))

/-- Numerical gradient of a scalar function on a manifold `X`, by central
differencing in each tangent coordinate (`numericalGradient`). -/
def numericalGradient {X : Type} {n : ℕ} (c : DefaultChart X n) (h : X → ℚ)
    (x : X) (delta : ℚ) : Fin n → ℚ :=
  numericalGradientLoop c h x delta (List.finRange n) (fun _ => 0) (fun _ => 0)

/-! ### `numericalDerivative11` (numericalDerivative.h lines 111-156)

Same in-place mutation pattern for the input perturbation `dx`; the Jacobian
`H` is filled column by column (`H.col(j) << (dy1 - dy2) * factor`), so the
accumulator stores the matrix column-indexed. -/

/-- One pass of the `numericalDerivative11` loop over the remaining input
coordinates, threading the perturbation `dx` and the column-indexed
accumulator `H`. -/
def numericalDerivative11Loop {X Y : Type} {n m : ℕ} (cX : DefaultChart X n)
    (cY : DefaultChart Y m) (h : X → Y) (x : X) (hx : Y) (delta : ℚ) :
    List (Fin n) → (Fin n → ℚ) → (Fin n → Fin m → ℚ) → (Fin n → Fin m → ℚ)
  | [], _, H => H
  | j :: js, dx, H =>
    let dx1 := Function.update dx j delta
    let dy1 := cY.localCoordinates hx (h (cX.retract x dx1))
    let dx2 := Function.update dx1 j (-delta)
    let dy2 := cY.localCoordinates hx (h (cX.retract x dx2))
    let dx3 := Function.update dx2 j 0
    numericalDerivative11Loop cX cY h x hx delta js dx3
      (Function.update H j (fun i => (dy1 i - dy2 i) * (1 / (2 * delta))))

/-- Numerical Jacobian of a manifold-valued function `h : X → Y`, measured in
the tangent space of `Y` at the unperturbed output `h x`
(`numericalDerivative11`). -/
def numericalDerivative11 {X Y : Type} {n m : ℕ} (cX : DefaultChart X n)
    (cY : DefaultChart Y m) (h : X → Y) (x : X) (delta : ℚ) :
    Matrix (Fin m) (Fin n) ℚ :=
  let hx := h x
  Matrix.of fun i j =>
    numericalDerivative11Loop cX cY h x hx delta (List.finRange n)
      (fun _ => 0) (fun _ _ => 0) j i

/-! ### Linearization harness (numericalDerivative.h lines 530-583)

The harness is type-erased with respect to the factor: it only uses the
factor's key list and its unwhitened-error evaluation, plus the assignment
container's bulk operations. -/

/-- Modelled from the spec: the variable-assignment container's collaborator
contract (spec section 6) — `zeroVectors` produces one zero tangent vector per
key and `retract` produces a new assignment from a delta map; the container
itself (`gtsam/nonlinear/Values.h`) is not part of the analysed sources. -/
structure ValuesOps (V : Type) where
  zeroVectors : V → VectorValues
  retract : V → VectorValues → V

/-- Noise model attached to an assembled linear system; only its whitening
map is relevant here (`SharedDiagonal`). -/
structure DiagonalL where
  whiten : Vec → Vec

/-- Modelled from the spec: the assembled linear system (spec section 3) — an
ordered list of per-key Jacobian blocks, a right-hand-side vector, and an
optional attached noise model; `gtsam/linear/JacobianFactor.h` is not part of
the analysed sources. Constructed from a `std::map<Key, Matrix>`, the blocks
carry the map's ascending key order. -/
structure JacobianFactorL where
  blocks : List (Key × Mat)
  rhs : Vec
  model : Option DiagonalL

/-- Modelled from the spec: the type-erased factor capability the harness and
cross-check driver need (spec sections 4.2 and 9) — the bound key list, the
unwhitened error evaluation, and the factor's own linearization. -/
structure NLFactor (V : Type) where
  keys : List Key
  unwhitenedError : V → Vec
  linearize : V → Option JacobianFactorL

/-- Inner column loop of `computeNumericalDerivativeJacobianFactor`: for each
column index, a fresh `dx` is zeroed, set to `fd_step` (then `-fd_step`) at
that index and written into the shared delta map `dX`, which the loop threads
along — mirroring the in-place mutation of the source. Returns the computed
Jacobian columns and the final state of `dX`. Since every column of
`J = Matrix::Zero(rows, cols)` is assigned exactly once, only the assigned
columns are kept. -/
def cndjfColLoop {V : Type} (errF : V → Vec) (retractV : V → VectorValues → V)
    (values : V) (fd_step : ℚ) (key : Key) (cols : ℕ) :
    List ℕ → VectorValues → List Vec × VectorValues
  | [], dX => ([], dX)
  | col :: rest, dX =>
    let dx := (zeroVec cols).set col fd_step
    let dX1 := mapInsert key dx dX
    let left := errF (retractV values dX1)
    let dx2 := dx.set col (-fd_step)
    let dX2 := mapInsert key dx2 dX1
    let right := errF (retractV values dX2)
    let Jcol := (vecSub left right).map (· * (1 / (2 * fd_step)))
    let r := cndjfColLoop errF retractV values fd_step key cols rest dX2
    (Jcol :: r.1, r.2)

/-- Outer key loop of `computeNumericalDerivativeJacobianFactor`: the delta
map `dX` is created once before the loop and threaded through the column loops
of the successive keys; each key's block is insert-or-assigned into the
`std::map<Key, Matrix> jacobians`. -/
def cndjfKeyLoop {V : Type} (errF : V → Vec) (retractV : V → VectorValues → V)
    (values : V) (fd_step : ℚ) :
    List Key → VectorValues → List (Key × Mat) → List (Key × Mat)
  | [], _, jacobians => jacobians
  | key :: rest, dX, jacobians =>
    let cols := vvDim dX key
    let r := cndjfColLoop errF retractV values fd_step key cols
        (List.range cols) dX
    cndjfKeyLoop errF retractV values fd_step rest r.2 (mapInsert key r.1 jacobians)

/-- Numerical-derivative linearization harness
(`computeNumericalDerivativeJacobianFactor`, lines 530-562): central
differences of the factor's unwhitened error in every tangent coordinate of
every key, assembled into a linear system with right-hand side `-e`. -/
def computeNumericalDerivativeJacobianFactor {V : Type} (ops : ValuesOps V)
    (factor : NLFactor V) (values : V) (fd_step : ℚ) : JacobianFactorL :=
  let e := factor.unwhitenedError values
  let jacobians := cndjfKeyLoop factor.unwhitenedError ops.retract values
      fd_step factor.keys (ops.zeroVectors values) []
  { blocks := jacobians, rhs := vecNeg e, model := none }

/-- The central-difference column the spec prescribes (spec section 4.2): the
delta map holds `+fd_step` (resp. `-fd_step`) in the single tangent coordinate
`col` of `key` and is zero in every other coordinate of every key. -/
def specCentralDiffColumn {V : Type} (ops : ValuesOps V) (factor : NLFactor V)
    (values : V) (fd_step : ℚ) (key : Key) (col : ℕ) : Vec :=
  let dX0 := ops.zeroVectors values
  let cols := vvDim dX0 key
  let plus := factor.unwhitenedError
      (ops.retract values (mapInsert key ((zeroVec cols).set col fd_step) dX0))
  let minus := factor.unwhitenedError
      (ops.retract values (mapInsert key ((zeroVec cols).set col (-fd_step)) dX0))
  (vecSub plus minus).map (· * (1 / (2 * fd_step)))

/-! ### Cross-check driver (`testFactorJacobians`, lines 564-583) -/

/-- Modelled from the spec: `jacobianUnweighted()` of the assembled linear
system — the horizontally stacked Jacobian blocks in their stored order paired
with the right-hand side, the stored noise model not applied (spec sections 3
and 4.4). -/
def jacobianUnweighted (jf : JacobianFactorL) : Mat × Vec :=
  ((jf.blocks.map Prod.snd).flatten, jf.rhs)

/-- Tolerance comparison of two vectors (gtsam `assert_equal` on vectors):
sizes must agree and every entry must agree within `tol`. -/
def assert_equal_vector (a b : Vec) (tol : ℚ) : Bool :=
  a.length == b.length &&
    (List.zip a b).all (fun p => decide (|p.1 - p.2| ≤ tol))

/-- Tolerance comparison of two matrices (gtsam `assert_equal` on matrices):
sizes must agree and every entry must agree within `tol`. -/
def assert_equal_matrix (a b : Mat) (tol : ℚ) : Bool :=
  a.length == b.length &&
    (List.zip a b).all (fun p => assert_equal_vector p.1 p.2 tol)

/-- Cross-check driver (`testFactorJacobians`): numerical harness system and
the factor's own linearization at the same values; the three booleans are the
outcomes of the three `EXPECT(assert_equal(...))` checks, in source order.
When `linearize` yields no factor the source dereferences a null pointer; that
undefined outcome is modelled as `none`. -/
def testFactorJacobians {V : Type} (ops : ValuesOps V) (f : NLFactor V)
    (values : V) (fd_step tolerance : ℚ) : Option (Bool × Bool × Bool) :=
  let expected := computeNumericalDerivativeJacobianFactor ops f values fd_step
  match f.linearize values with
  | none => none
  | some jf =>
    let evalJ := jacobianUnweighted jf
    let estJ := jacobianUnweighted expected
    some (assert_equal_matrix evalJ.1 estJ.1 tolerance,
          assert_equal_vector evalJ.2 (zeroVec evalJ.2.length) tolerance,
          assert_equal_vector estJ.2 (zeroVec evalJ.2.length) tolerance)

/-! ### Analytic-derivative factor (`gtsam/nonlinear/ExpressionFactor.h`)

`ExpressionFactor<T>` for a value type `T` with manifold traits; the
expression, the noise model and the generic factor base are collaborators
(spec section 6) and enter as structure fields. -/

/-- Manifold traits of the value type `T` (`gtsam::traits<T>`): the fixed
tangent dimension `traits<T>::dimension` and the local-coordinates map
`traits<T>::Local`, whose output has the declared dimension. -/
structure ManifoldTraits (T : Type) where
  dim : ℕ
  Local : T → T → Vec
  local_len : ∀ a b, (Local a b).length = dim

/-- Modelled from the spec: the noise/weight model collaborator (spec section
6) — declared dimension, the constrained/rank-deficient flag, the whitening
of a whole system `WhitenSystem(A, b)` returning the transformed matrix and
vector, and the designated unit weighting `Constrained::unit()`; the noise
model internals (`gtsam/linear/NoiseModel.h`) are not part of the analysed
sources. Whitening preserves the shape of the system it transforms. -/
structure NoiseModelL where
  dim : ℕ
  isConstrained : Bool
  whitenSystem : Mat → Vec → Mat × Vec
  unit : DiagonalL
  ws_len : ∀ A b, (whitenSystem A b).1.length = A.length
  ws_col_len : ∀ A b j, j < A.length →
    ((whitenSystem A b).1.getD j []).length = (A.getD j []).length

/-- Modelled from the spec: the derivative-producing expression collaborator
(spec section 6) — its bound keys and their tangent dimensions, plain forward
evaluation, evaluation with one derivative block per bound key, and the
reverse-AD pass producing per-key Jacobian contributions that are accumulated
into a preallocated block matrix; `gtsam/nonlinear/Expression.h` is not part
of the analysed sources. -/
structure ExpressionL (T V : Type) where
  keysAndDims : List Key × List ℕ
  value : V → T
  valueAndDerivatives : V → List Key → List ℕ → T × List Mat
  valueAndJacobianMap : V → T × List (Key × Mat)

/-- The fully initialized analytic-derivative factor: measurement, bound
expression, cached keys and dimensions, noise model, and the `active`
predicate supplied by the generic factor base (spec section 6). -/
structure ExpressionFactorL (T V : Type) where
  measured : T
  expression : ExpressionL T V
  keys : List Key
  dims : List ℕ
  noiseModel : NoiseModelL
  active : V → Bool

/-- State set up by the protected
`ExpressionFactor(noiseModel, measurement)` constructor: the stored (possibly
null) noise model, the measurement and the key list — "Not properly
initialized yet, need to call initialize". -/
structure PreFactor (T : Type) where
  noiseModel : Option NoiseModelL
  measured : T
  keys : List Key

/-- Validation and setup of `ExpressionFactor::initialize` (lines 144-156):
throws (`Except.error`) when the stored noise model is missing, then when its
declared dimension differs from `traits<T>::dimension`; otherwise stores the
expression and overwrites the keys and dimensions from
`expression.keysAndDims()`. The `active` predicate comes from the factor
base. -/
def initializeFactor {T V : Type} (tr : ManifoldTraits T) (pre : PreFactor T)
    (e : ExpressionL T V) (act : V → Bool) :
    Except String (ExpressionFactorL T V) :=
  match pre.noiseModel with
  | none => .error "ExpressionFactor: no NoiseModel."
  | some nm =>
    if nm.dim ≠ tr.dim then
      .error "ExpressionFactor was created with a NoiseModel of incorrect dimension."
    else
      .ok { measured := pre.measured, expression := e,
            keys := e.keysAndDims.1, dims := e.keysAndDims.2,
            noiseModel := nm, active := act }

/-- Public constructor
`ExpressionFactor(noiseModel, measurement, expression)` (lines 50-54): stores
the noise model and measurement, then calls `initialize`. -/
def mkExpressionFactor {T V : Type} (tr : ManifoldTraits T)
    (noiseModel : Option NoiseModelL) (measurement : T) (e : ExpressionL T V)
    (act : V → Bool) : Except String (ExpressionFactorL T V) :=
  initializeFactor tr
    { noiseModel := noiseModel, measured := measurement, keys := [] } e act

/-- Protected constructor
`ExpressionFactor2(key1, key2, noiseModel, measurement)` (lines 227-234):
delegates to the protected `ExpressionFactor(noiseModel, measurement)`
constructor — which performs no validation — and pushes the two keys;
`initialize` is left to the derived class, so this constructor never
throws. -/
def mkExpressionFactor2 {T : Type} (key1 key2 : Key)
    (noiseModel : Option NoiseModelL) (measurement : T) :
    Except String (PreFactor T) :=
  .ok { noiseModel := noiseModel, measured := measurement,
        keys := [key1, key2] }

/-- Unwhitened error `ExpressionFactor::unwhitenedError` (lines 81-90):
`Local(measured, value)` with the value obtained through
`valueAndDerivatives` when derivative output is requested and through
`value` otherwise. -/
def ExpressionFactorL.unwhitenedError {T V : Type} (tr : ManifoldTraits T)
    (f : ExpressionFactorL T V) (x : V) (wantH : Bool) : Vec × List Mat :=
  if wantH then
    let vd := f.expression.valueAndDerivatives x f.keys f.dims
    (tr.Local f.measured vd.1, vd.2)
  else
    (tr.Local f.measured (f.expression.value x), [])

/-- Entrywise in-place accumulation of `src` into `tgt` over `tgt`'s shape,
modelling the reverse-AD write into a fixed-size block of the preallocated
`VerticalBlockMatrix` (the target's shape cannot change). -/
def vecAddInto (tgt src : Vec) : Vec :=
  (List.range tgt.length).map fun i => tgt.getD i 0 + src.getD i 0

/-- Columnwise in-place accumulation of a matrix contribution into a
fixed-shape target block. -/
def matAddInto (tgt src : Mat) : Mat :=
  (List.range tgt.length).map fun j => vecAddInto (tgt.getD j []) (src.getD j [])

/-- Accumulate one per-key Jacobian contribution into the preallocated block
of that key (`internal::JacobianMap`): blocks of other keys are untouched and
the block's shape is preserved. -/
def addJacobianUpdate (Ab : List (Key × Mat)) (k : Key) (M : Mat) :
    List (Key × Mat) :=
  Ab.map fun kv => if kv.1 = k then (kv.1, matAddInto kv.2 M) else kv

/-- Split a flat list of columns back into consecutive blocks of the given
widths (the block structure of the `VerticalBlockMatrix`). -/
def splitCols : List ℕ → Mat → List Mat
  | [], _ => []
  | d :: ds, cols => cols.take d :: splitCols ds (cols.drop d)

/-- Linearization `ExpressionFactor::linearize` (lines 92-126): no factor when
inactive; otherwise a `JacobianFactor` is preallocated over `keys_, dims_,
Dim` — carrying the constrained model's `unit()` as its noise model exactly
when the model is constrained — its zeroed block matrix is filled by the
expression's reverse-AD pass, the right-hand-side column is set to
`-Local(measured, value)`, and `noiseModel_->WhitenSystem(Ab.matrix(), b)`
whitens the full block matrix, the right-hand-side column included (the
vector `b` passed alongside is a copy whose whitened value is discarded). -/
def ExpressionFactorL.linearize {T V : Type} (tr : ManifoldTraits T)
    (f : ExpressionFactorL T V) (x : V) : Option JacobianFactorL :=
  if f.active x then
    let noiseModelDiag : Option DiagonalL :=
      if f.noiseModel.isConstrained then some f.noiseModel.unit else none
    let Ab0 : List (Key × Mat) :=
      (List.zip f.keys f.dims).map fun kd => (kd.1, zeroMat tr.dim kd.2)
    let vj := f.expression.valueAndJacobianMap x
    let Ab1 := vj.2.foldl (fun Ab km => addJacobianUpdate Ab km.1 km.2) Ab0
    let rhs := vecNeg (tr.Local f.measured vj.1)
    let AbMat := (Ab1.map Prod.snd).flatten ++ [rhs]
    let wAb := (f.noiseModel.whitenSystem AbMat rhs).1
    some { blocks := List.zip (Ab1.map Prod.fst) (splitCols f.dims wAb),
           rhs := (wAb.drop f.dims.sum).headD [],
           model := noiseModelDiag }
  else none

/-- The claim's reading of `linearize` (claim C3): identical assembly, but
when the noise model reports being constrained, the designated unit weighting
obtained from it whitens the system instead of the original model's
whitening. This definition follows the spec's words, for comparison with the
source-faithful `ExpressionFactorL.linearize`. -/
def linearizeClaimC3 {T V : Type} (tr : ManifoldTraits T)
    (f : ExpressionFactorL T V) (x : V) : Option JacobianFactorL :=
  if f.active x then
    let noiseModelDiag : Option DiagonalL :=
      if f.noiseModel.isConstrained then some f.noiseModel.unit else none
    let Ab0 : List (Key × Mat) :=
      (List.zip f.keys f.dims).map fun kd => (kd.1, zeroMat tr.dim kd.2)
    let vj := f.expression.valueAndJacobianMap x
    let Ab1 := vj.2.foldl (fun Ab km => addJacobianUpdate Ab km.1 km.2) Ab0
    let rhs := vecNeg (tr.Local f.measured vj.1)
    let AbMat := (Ab1.map Prod.snd).flatten ++ [rhs]
    let wAb := if f.noiseModel.isConstrained
      then AbMat.map f.noiseModel.unit.whiten
      else (f.noiseModel.whitenSystem AbMat rhs).1
    some { blocks := List.zip (Ab1.map Prod.fst) (splitCols f.dims wAb),
           rhs := (wAb.drop f.dims.sum).headD [],
           model := noiseModelDiag }
  else none

/-- Two-entry assignment container for the binary specialization: a key-ordered
map whose values are either a first-slot (`A1`) or second-slot (`A2`) value. -/
abbrev Values2 (A1 A2 : Type) := List (Key × (A1 ⊕ A2))

/-- Backwards-compatible `ExpressionFactor2::evaluateError` (lines 203-215):
inserts the two typed arguments into a fresh assignment under the factor's
first and second key, calls `unwhitenedError` with a two-slot derivative
output vector unconditionally, and copies the requested blocks into the
optional outputs. -/
def ExpressionFactorL.evaluateError {T A1 A2 : Type} (tr : ManifoldTraits T)
    (f : ExpressionFactorL T (Values2 A1 A2)) (a1 : A1) (a2 : A2)
    (wantH1 wantH2 : Bool) : Vec × Option Mat × Option Mat :=
  let values : Values2 A1 A2 :=
    mapInsert (f.keys.getD 1 0) (Sum.inr a2)
      (mapInsert (f.keys.getD 0 0) (Sum.inl a1) [])
  let eh := f.unwhitenedError tr values true
  (eh.1,
   if wantH1 then some (eh.2.getD 0 []) else none,
   if wantH2 then some (eh.2.getD 1 []) else none)

/-! ### Shape invariant of the preallocated block matrix -/

/-- Shape invariant of a keyed block matrix: the keys are exactly `ks` in
order, the blocks' column counts are exactly `ds`, and every column has
`n` rows. -/
def ShapedAb (n : ℕ) (ks : List Key) (ds : List ℕ)
    (Ab : List (Key × Mat)) : Prop :=
  Ab.map Prod.fst = ks ∧ Ab.map (fun km => km.2.length) = ds ∧
    ∀ km ∈ Ab, ∀ c ∈ km.2, c.length = n

/-! ### Concrete instantiations used as counterexamples and witnesses -/

/-- Assignment container with two one-dimensional Euclidean variables under
keys `0` and `1`, holding the pair of their values. -/
def opsPair : ValuesOps (ℚ × ℚ) :=
  { zeroVectors := fun _ => [(0, [0]), (1, [0])]
    retract := fun v dX =>
      (v.1 + ((mapFind? 0 dX).getD []).getD 0 0,
       v.2 + ((mapFind? 1 dX).getD []).getD 0 0) }

/-- Two-key factor with the nonlinear error `[a * b]`, keys declared in
ascending order. -/
def facC1 : NLFactor (ℚ × ℚ) :=
  { keys := [0, 1]
    unwhitenedError := fun v => [v.1 * v.2]
    linearize := fun _ => none }

/-- Two-key factor with the linear error `[a + b]` whose keys are declared in
descending order `[1, 0]`. -/
def facC5 : NLFactor (ℚ × ℚ) :=
  { keys := [1, 0]
    unwhitenedError := fun v => [v.1 + v.2]
    linearize := fun _ => none }

/-- Assignment container with a single one-dimensional Euclidean variable
under key `0`. -/
def opsOne : ValuesOps ℚ :=
  { zeroVectors := fun _ => [(0, [0])]
    retract := fun v dX => v + ((mapFind? 0 dX).getD []).getD 0 0 }

/-- Linear system with a single identity block and zero right-hand side. -/
def jfC4 : JacobianFactorL :=
  { blocks := [(0, [[1]])], rhs := [0], model := none }

/-- One-key factor with error `[v]` whose own linearization returns `jfC4`. -/
def facC4 : NLFactor ℚ :=
  { keys := [0]
    unwhitenedError := fun v => [v]
    linearize := fun _ => some jfC4 }

/-- Manifold traits of `ℚ` as a one-dimensional Euclidean value:
`Local a b = [b - a]`. -/
def tr1 : ManifoldTraits ℚ :=
  { dim := 1
    Local := fun a b => [b - a]
    local_len := fun _ _ => rfl }

/-- Unit noise model of dimension 1: not constrained, whitening is the
identity. -/
def unitNM : NoiseModelL :=
  { dim := 1
    isConstrained := false
    whitenSystem := fun A b => (A, b)
    unit := { whiten := fun v => v }
    ws_len := fun _ _ => rfl
    ws_col_len := fun _ _ _ _ => rfl }

/-- Identity-whitening noise model whose declared dimension 2 mismatches the
one-dimensional value type of `tr1`. -/
def nmWrongDim : NoiseModelL :=
  { dim := 2
    isConstrained := false
    whitenSystem := fun A b => (A, b)
    unit := { whiten := fun v => v }
    ws_len := fun _ _ => rfl
    ws_col_len := fun _ _ _ _ => rfl }

/-- Constrained noise model of dimension 1 whose own whitening doubles every
entry of the system, while its designated unit weighting is the identity. -/
def nmC3 : NoiseModelL :=
  { dim := 1
    isConstrained := true
    whitenSystem := fun A b => (A.map (List.map (2 * ·)), b.map (2 * ·))
    unit := { whiten := fun v => v }
    ws_len := fun A _ => List.length_map A _
    ws_col_len := by
      intro A b j hj
      simp [List.getD_eq_getElem?_getD, List.getElem?_map,
        List.getElem?_eq_getElem hj] }

/-- Identity expression on a single variable of key `0`: its value is the
variable itself and its Jacobian block is the 1-by-1 identity. -/
def idExpr : ExpressionL ℚ ℚ :=
  { keysAndDims := ([0], [1])
    value := fun v => v
    valueAndDerivatives := fun v _ _ => (v, [[[1]]])
    valueAndJacobianMap := fun v => (v, [(0, [[1]])]) }

/-- Factor measuring `h(x) = x` against measurement `z` with the unit noise
model (spec scenario 3). -/
def facC8 (z : ℚ) : ExpressionFactorL ℚ ℚ :=
  { measured := z
    expression := idExpr
    keys := [0]
    dims := [1]
    noiseModel := unitNM
    active := fun _ => true }

/-- Factor measuring `h(x) = x` against measurement `1` whose noise model is
the constrained, doubling-whitening `nmC3`. -/
def facC3 : ExpressionFactorL ℚ ℚ :=
  { measured := 1
    expression := idExpr
    keys := [0]
    dims := [1]
    noiseModel := nmC3
    active := fun _ => true }

/-- Binary expression over a two-entry assignment: the value is the sum of the
two slots and the two derivative blocks are distinct constants, so that the
derivative-computing entry point is observably distinct from plain
evaluation. -/
def expr2W : ExpressionL ℚ (Values2 ℚ ℚ) :=
  { keysAndDims := ([0, 1], [1, 1])
    value := fun _ => 0
    valueAndDerivatives := fun vals _ _ =>
      (((mapFind? 0 vals).elim 0 (Sum.elim id (fun _ => 0))) +
       ((mapFind? 1 vals).elim 0 (Sum.elim (fun _ => 0) id)), [[[1]], [[2]]])
    valueAndJacobianMap := fun _ => (0, []) }

/-- Binary factor built on `expr2W` with keys `[0, 1]` and unit noise. -/
def facC10 : ExpressionFactorL ℚ (Values2 ℚ ℚ) :=
  { measured := 0
    expression := expr2W
    keys := [0, 1]
    dims := [1, 1]
    noiseModel := unitNM
    active := fun _ => true }

/-! ## Theorems -/

theorem numericalGradientLoop_not_mem {X : Type} {n : ℕ} (c : DefaultChart X n)
    (h : X → ℚ) (x : X) (delta : ℚ) (js : List (Fin n)) (d g : Fin n → ℚ)
    (j : Fin n) (hj : j ∉ js) :
    numericalGradientLoop c h x delta js d g j = g j := by
  induction js generalizing d g with
  | nil => rfl
  | cons j' js ih =>
    have hne : j ≠ j' := fun e => hj (e ▸ List.mem_cons_self j' js)
    have hjs : j ∉ js := fun m => hj (List.mem_cons_of_mem j' m)
    simp only [numericalGradientLoop]
    rw [ih _ _ hjs]
    exact Function.update_noteq hne _ g

theorem numericalGradientLoop_mem {X : Type} {n : ℕ} (c : DefaultChart X n)
    (h : X → ℚ) (x : X) (delta : ℚ) (js : List (Fin n)) (g : Fin n → ℚ)
    (j : Fin n) (hnd : js.Nodup) (hj : j ∈ js) :
    numericalGradientLoop c h x delta js (fun _ => 0) g j
      = (h (c.retract x (Pi.single j delta))
          - h (c.retract x (Pi.single j (-delta)))) * (1 / (2 * delta)) := by
  induction js generalizing g with
  | nil => cases hj
  | cons j' js ih =>
    rcases List.nodup_cons.mp hnd with ⟨hj', hnd'⟩
    have hsingle : ∀ q : ℚ,
        Function.update (fun _ : Fin n => (0 : ℚ)) j' q = Pi.single j' q :=
      fun _ => rfl
    have hd2 : Function.update
        (Function.update (fun _ : Fin n => (0 : ℚ)) j' delta) j' (-delta)
        = Function.update (fun _ : Fin n => (0 : ℚ)) j' (-delta) :=
      Function.update_idem ..
    have hd3 : Function.update (Function.update
        (Function.update (fun _ : Fin n => (0 : ℚ)) j' delta) j' (-delta)) j' 0
        = fun _ : Fin n => (0 : ℚ) := by
      rw [Function.update_idem, Function.update_idem]
      exact Function.update_eq_self j' _
    simp only [numericalGradientLoop]
    rw [hd3, hd2, hsingle, hsingle]
    rcases eq_or_ne j j' with rfl | hne
    · rw [numericalGradientLoop_not_mem c h x delta js _ _ j hj']
      exact Function.update_same ..
    · have hjs : j ∈ js := (List.mem_cons.mp hj).resolve_left hne
      exact ih _ hnd' hjs

/-- C7: for a scalar function `h` of one manifold argument with tangent
dimension `N` and step `delta`, `numericalGradient h x delta` is the length-`N`
vector whose `j`-th component is
`(h(retract(x, +delta*e_j)) - h(retract(x, -delta*e_j))) / (2*delta)`, each
perturbation being along the single coordinate `j` only. -/
theorem numericalGradient_spec {X : Type} {n : ℕ} (c : DefaultChart X n)
    (h : X → ℚ) (x : X) (delta : ℚ) (j : Fin n) :
    numericalGradient c h x delta j
      = (h (c.retract x (Pi.single j delta))
          - h (c.retract x (Pi.single j (-delta)))) / (2 * delta) := by
  rw [numericalGradient, numericalGradientLoop_mem c h x delta _ _ j
    (List.nodup_finRange n) (List.mem_finRange j)]
  exact mul_one_div _ _

theorem numericalDerivative11Loop_not_mem {X Y : Type} {n m : ℕ}
    (cX : DefaultChart X n) (cY : DefaultChart Y m) (h : X → Y) (x : X) (hx : Y)
    (delta : ℚ) (js : List (Fin n)) (dx : Fin n → ℚ) (H : Fin n → Fin m → ℚ)
    (j : Fin n) (hj : j ∉ js) :
    numericalDerivative11Loop cX cY h x hx delta js dx H j = H j := by
  induction js generalizing dx H with
  | nil => rfl
  | cons j' js ih =>
    have hne : j ≠ j' := fun e => hj (e ▸ List.mem_cons_self j' js)
    have hjs : j ∉ js := fun mm => hj (List.mem_cons_of_mem j' mm)
    simp only [numericalDerivative11Loop]
    rw [ih _ _ hjs]
    exact Function.update_noteq hne _ H

theorem numericalDerivative11Loop_mem {X Y : Type} {n m : ℕ}
    (cX : DefaultChart X n) (cY : DefaultChart Y m) (h : X → Y) (x : X) (hx : Y)
    (delta : ℚ) (js : List (Fin n)) (H : Fin n → Fin m → ℚ) (j : Fin n)
    (hnd : js.Nodup) (hj : j ∈ js) :
    numericalDerivative11Loop cX cY h x hx delta js (fun _ => 0) H j
      = fun i => (cY.localCoordinates hx (h (cX.retract x (Pi.single j delta))) i
          - cY.localCoordinates hx (h (cX.retract x (Pi.single j (-delta)))) i)
            * (1 / (2 * delta)) := by
  induction js generalizing H with
  | nil => cases hj
  | cons j' js ih =>
    rcases List.nodup_cons.mp hnd with ⟨hj', hnd'⟩
    have hsingle : ∀ q : ℚ,
        Function.update (fun _ : Fin n => (0 : ℚ)) j' q = Pi.single j' q :=
      fun _ => rfl
    have hd2 : Function.update
        (Function.update (fun _ : Fin n => (0 : ℚ)) j' delta) j' (-delta)
        = Function.update (fun _ : Fin n => (0 : ℚ)) j' (-delta) :=
      Function.update_idem ..
    have hd3 : Function.update (Function.update
        (Function.update (fun _ : Fin n => (0 : ℚ)) j' delta) j' (-delta)) j' 0
        = fun _ : Fin n => (0 : ℚ) := by
      rw [Function.update_idem, Function.update_idem]
      exact Function.update_eq_self j' _
    simp only [numericalDerivative11Loop]
    rw [hd3, hd2, hsingle, hsingle]
    rcases eq_or_ne j j' with rfl | hne
    · rw [numericalDerivative11Loop_not_mem cX cY h x hx delta js _ _ j hj']
      exact Function.update_same ..
    · have hjs : j ∈ js := (List.mem_cons.mp hj).resolve_left hne
      exact ih _ hnd' hjs

/-- C6: `numericalDerivative11 h x delta` is the `M`-by-`N` matrix whose
column `j` is
`(local(y0, h(retract(x, +delta*e_j))) - local(y0, h(retract(x, -delta*e_j)))) / (2*delta)`
with `y0 = h(x)`; and for `h(x) = A*x` over the trivial Euclidean chart the
result equals `A` exactly, independent of `x`. -/
theorem numericalDerivative11_spec :
    (∀ (X Y : Type) (n m : ℕ) (cX : DefaultChart X n) (cY : DefaultChart Y m)
        (h : X → Y) (x : X) (delta : ℚ) (i : Fin m) (j : Fin n),
      numericalDerivative11 cX cY h x delta i j
        = (cY.localCoordinates (h x) (h (cX.retract x (Pi.single j delta))) i
            - cY.localCoordinates (h x) (h (cX.retract x (Pi.single j (-delta)))) i)
              / (2 * delta))
  ∧ (∀ (k m : ℕ) (A : Matrix (Fin m) (Fin k) ℚ) (x : Fin k → ℚ) (delta : ℚ),
      delta ≠ 0 →
      numericalDerivative11 (euclideanChart k) (euclideanChart m)
        (fun v => A.mulVec v) x delta = A) := by
  have main : ∀ (X Y : Type) (n m : ℕ) (cX : DefaultChart X n)
      (cY : DefaultChart Y m) (h : X → Y) (x : X) (delta : ℚ) (i : Fin m)
      (j : Fin n),
      numericalDerivative11 cX cY h x delta i j
        = (cY.localCoordinates (h x) (h (cX.retract x (Pi.single j delta))) i
            - cY.localCoordinates (h x) (h (cX.retract x (Pi.single j (-delta)))) i)
              / (2 * delta) := by
    intro X Y n m cX cY h x delta i j
    show numericalDerivative11Loop cX cY h x (h x) delta (List.finRange n)
        (fun _ => 0) (fun _ _ => 0) j i = _
    rw [numericalDerivative11Loop_mem cX cY h x (h x) delta _ _ j
      (List.nodup_finRange n) (List.mem_finRange j)]
    exact mul_one_div _ _
  refine ⟨main, ?_⟩
  intro k m A x delta hdelta
  ext i j
  rw [main]
  have expand : ∀ q : ℚ,
      A.mulVec (fun i' => x i' + (Pi.single j q : Fin k → ℚ) i') i
        = A.mulVec x i + A i j * q := by
    intro q
    have h1 : (fun i' => x i' + (Pi.single j q : Fin k → ℚ) i')
        = x + (Pi.single j q : Fin k → ℚ) := rfl
    rw [h1, Matrix.mulVec_add, Matrix.mulVec_single]
    simp
  simp only [euclideanChart]
  rw [expand delta, expand (-delta)]
  field_simp
  ring

/-- C6 witness: the Euclidean part of the claim applied to a concrete matrix,
point and step. -/
theorem numericalDerivative11_spec_witness :
    (1 : ℚ) ≠ 0 ∧
    numericalDerivative11 (euclideanChart 2) (euclideanChart 2)
      (fun v => (!![1, 2; 3, 4] : Matrix (Fin 2) (Fin 2) ℚ).mulVec v)
      ![5, 7] 1 = !![1, 2; 3, 4] :=
  ⟨one_ne_zero, numericalDerivative11_spec.2 2 2 !![1, 2; 3, 4] ![5, 7] 1 one_ne_zero⟩

/-- C1: evaluation of the harness at the failing input. For the two-key factor
with error `[a * b]` at `(1, 1)` and `fd_step = 1`, the returned system does
carry right-hand side `-e`, but its Jacobian block for key `1` is `[[0]]`,
whereas the central-difference column prescribed by the claim — delta map zero
in every coordinate other than the single perturbed one — is `[1]`: after key
`0`'s column loop the shared delta map retains `-fd_step` in key `0`'s
coordinate, so key `1`'s perturbations are evaluated around a shifted base
point. -/
theorem computeNumericalDerivative_staleDelta :
    (computeNumericalDerivativeJacobianFactor opsPair facC1 (1, 1) 1).blocks
        = [(0, [[1]]), (1, [[0]])]
  ∧ (computeNumericalDerivativeJacobianFactor opsPair facC1 (1, 1) 1).rhs = [-1]
  ∧ specCentralDiffColumn opsPair facC1 (1, 1) 1 1 0 = [1]
  ∧ mapFind? 1 (computeNumericalDerivativeJacobianFactor opsPair facC1 (1, 1) 1).blocks
        ≠ some [specCentralDiffColumn opsPair facC1 (1, 1) 1 1 0] := by
  refine ⟨?_, ?_, ?_, ?_⟩ <;>
    norm_num [computeNumericalDerivativeJacobianFactor, cndjfKeyLoop,
      cndjfColLoop, opsPair, facC1, mapInsert, mapFind?, vvDim, zeroVec,
      vecSub, vecNeg, specCentralDiffColumn]

theorem mapInsert_keys_mem {α : Type} (k : Key) (v : α) (m : List (Key × α))
    (a : Key) :
    a ∈ (mapInsert k v m).map Prod.fst ↔ a = k ∨ a ∈ m.map Prod.fst := by
  induction m with
  | nil => simp [mapInsert]
  | cons kv rest ih =>
    obtain ⟨k', v'⟩ := kv
    by_cases h1 : k < k'
    · simp only [mapInsert, if_pos h1, List.map_cons, List.mem_cons]
    · by_cases h2 : k = k'
      · subst h2
        simp only [mapInsert, if_neg h1, eq_self_iff_true, if_true,
          List.map_cons, List.mem_cons]
        tauto
      · simp only [mapInsert, if_neg h1, if_neg h2, List.map_cons,
          List.mem_cons, ih]
        tauto

theorem mapInsert_keys_sorted {α : Type} (k : Key) (v : α) (m : List (Key × α))
    (h : List.Sorted (· < ·) (m.map Prod.fst)) :
    List.Sorted (· < ·) ((mapInsert k v m).map Prod.fst) := by
  induction m with
  | nil => simp [mapInsert]
  | cons kv rest ih =>
    obtain ⟨k', v'⟩ := kv
    rw [List.map_cons, List.sorted_cons] at h
    obtain ⟨hk', hrest⟩ := h
    by_cases h1 : k < k'
    · simp only [mapInsert, if_pos h1, List.map_cons, List.sorted_cons]
      refine ⟨?_, ?_, hrest⟩
      · intro b hb
        rcases List.mem_cons.mp hb with rfl | hb
        · exact h1
        · exact lt_trans h1 (hk' b hb)
      · exact hk'
    · by_cases h2 : k = k'
      · subst h2
        simp only [mapInsert, if_neg h1, eq_self_iff_true, if_true,
          List.map_cons, List.sorted_cons]
        exact ⟨hk', hrest⟩
      · have h3 : k' < k := lt_of_le_of_ne (not_lt.mp h1) (Ne.symm h2)
        simp only [mapInsert, if_neg h1, if_neg h2, List.map_cons,
          List.sorted_cons]
        refine ⟨?_, ih hrest⟩
        intro b hb
        rcases (mapInsert_keys_mem k v rest b).mp hb with rfl | hb
        · exact h3
        · exact hk' b hb

theorem cndjfKeyLoop_keys {V : Type} (errF : V → Vec)
    (retractV : V → VectorValues → V) (values : V) (fd_step : ℚ)
    (keys : List Key) (dX : VectorValues) (jac : List (Key × Mat)) :
    (List.Sorted (· < ·) (jac.map Prod.fst) →
      List.Sorted (· < ·)
        ((cndjfKeyLoop errF retractV values fd_step keys dX jac).map Prod.fst))
  ∧ ∀ a : Key,
      a ∈ (cndjfKeyLoop errF retractV values fd_step keys dX jac).map Prod.fst
        ↔ a ∈ jac.map Prod.fst ∨ a ∈ keys := by
  induction keys generalizing dX jac with
  | nil => simp [cndjfKeyLoop]
  | cons key rest ih =>
    simp only [cndjfKeyLoop]
    constructor
    · intro hs
      exact (ih _ _).1 (mapInsert_keys_sorted key _ jac hs)
    · intro a
      rw [(ih _ _).2 a, mapInsert_keys_mem]
      simp only [List.mem_cons]
      tauto

/-- C5 (amended): the linear system returned by
`computeNumericalDerivativeJacobianFactor` contains exactly one Jacobian block
per key the factor depends on (the block keys are strictly ascending, hence
duplicate-free, and are exactly the factor's keys), but the blocks appear in
ascending key order — the `std::map` iteration order — which coincides with
the declaration order only when the keys were declared in ascending order. -/
theorem cndjf_blocks_sorted {V : Type} (ops : ValuesOps V) (f : NLFactor V)
    (values : V) (fd_step : ℚ) :
    List.Sorted (· < ·)
      ((computeNumericalDerivativeJacobianFactor ops f values fd_step).blocks.map
        Prod.fst)
  ∧ ∀ a : Key,
      a ∈ (computeNumericalDerivativeJacobianFactor ops f values
          fd_step).blocks.map Prod.fst ↔ a ∈ f.keys := by
  simp only [computeNumericalDerivativeJacobianFactor]
  constructor
  · exact (cndjfKeyLoop_keys f.unwhitenedError ops.retract values fd_step
      f.keys (ops.zeroVectors values) []).1 (by simp)
  · intro a
    rw [(cndjfKeyLoop_keys f.unwhitenedError ops.retract values fd_step
      f.keys (ops.zeroVectors values) []).2 a]
    simp

/-- C5 counterexample: a factor declaring its keys in the order `[1, 0]` gets
back blocks keyed `[0, 1]` — ascending key order, not declaration order. -/
theorem cndjf_blocks_order_counterexample :
    facC5.keys = [1, 0]
  ∧ (computeNumericalDerivativeJacobianFactor opsPair facC5 (1, 1) 1).blocks.map
      Prod.fst = [0, 1]
  ∧ (computeNumericalDerivativeJacobianFactor opsPair facC5 (1, 1) 1).blocks.map
      Prod.fst ≠ facC5.keys := by
  refine ⟨rfl, ?_, ?_⟩ <;>
    norm_num [computeNumericalDerivativeJacobianFactor, cndjfKeyLoop,
      cndjfColLoop, opsPair, facC5, mapInsert, mapFind?, vvDim, zeroVec,
      vecSub, vecNeg]

theorem zip_zeroVec (u : Vec) :
    List.zip u (zeroVec u.length) = u.map (fun x => (x, (0 : ℚ))) := by
  induction u with
  | nil => rfl
  | cons x xs ih => simpa [zeroVec, List.replicate_succ] using ih

theorem assert_equal_vector_iff (a b : Vec) (tol : ℚ) :
    assert_equal_vector a b tol = true
      ↔ (a.length = b.length ∧ ∀ q ∈ List.zip a b, |q.1 - q.2| ≤ tol) := by
  unfold assert_equal_vector
  rw [Bool.and_eq_true, beq_iff_eq, List.all_eq_true]
  simp only [decide_eq_true_eq]

theorem assert_equal_vector_zero_iff (u : Vec) (L : ℕ) (tol : ℚ) :
    assert_equal_vector u (zeroVec L) tol = true
      ↔ (u.length = L ∧ ∀ v ∈ u, |v| ≤ tol) := by
  rw [assert_equal_vector_iff]
  simp only [zeroVec, List.length_replicate]
  constructor
  · rintro ⟨hlen, hall⟩
    subst hlen
    refine ⟨rfl, ?_⟩
    intro v hv
    have := hall (v, 0) (by
      rw [show List.replicate u.length (0 : ℚ) = zeroVec u.length from rfl,
        zip_zeroVec]
      exact List.mem_map_of_mem _ hv)
    simpa using this
  · rintro ⟨hlen, hall⟩
    subst hlen
    refine ⟨rfl, ?_⟩
    intro q hq
    rw [show List.replicate u.length (0 : ℚ) = zeroVec u.length from rfl,
      zip_zeroVec] at hq
    obtain ⟨v, hv, rfl⟩ := List.mem_map.mp hq
    simpa using hall v hv

theorem assert_equal_matrix_iff (a b : Mat) (tol : ℚ) :
    assert_equal_matrix a b tol = true
      ↔ (a.length = b.length ∧ ∀ p ∈ List.zip a b,
          p.1.length = p.2.length ∧ ∀ q ∈ List.zip p.1 p.2, |q.1 - q.2| ≤ tol) := by
  unfold assert_equal_matrix
  rw [Bool.and_eq_true, beq_iff_eq, List.all_eq_true]
  constructor
  · rintro ⟨hlen, hall⟩
    exact ⟨hlen, fun p hp => (assert_equal_vector_iff p.1 p.2 tol).mp (hall p hp)⟩
  · rintro ⟨hlen, hall⟩
    exact ⟨hlen, fun p hp => (assert_equal_vector_iff p.1 p.2 tol).mpr (hall p hp)⟩

/-- C4: when the factor's own linearization yields a system `jf`,
`testFactorJacobians` computes the harness's system and `jf` at the same
values and produces exactly the three checks of the source: the two unweighted
stacked Jacobian matrices compared elementwise within `tolerance`, and each of
the two right-hand-side/residual vectors compared elementwise against zero
within `tolerance` (sizes measured against the factor's own residual). -/
theorem testFactorJacobians_spec {V : Type} (ops : ValuesOps V)
    (f : NLFactor V) (values : V) (fd_step tol : ℚ) (jf : JacobianFactorL)
    (hlin : f.linearize values = some jf) :
    (testFactorJacobians ops f values fd_step tol
      = some (assert_equal_matrix (jacobianUnweighted jf).1
            (jacobianUnweighted
              (computeNumericalDerivativeJacobianFactor ops f values fd_step)).1
            tol,
          assert_equal_vector jf.rhs (zeroVec jf.rhs.length) tol,
          assert_equal_vector
            (computeNumericalDerivativeJacobianFactor ops f values fd_step).rhs
            (zeroVec jf.rhs.length) tol))
  ∧ (∀ A B : Mat, assert_equal_matrix A B tol = true ↔
      (A.length = B.length ∧ ∀ p ∈ List.zip A B,
        p.1.length = p.2.length ∧ ∀ q ∈ List.zip p.1 p.2, |q.1 - q.2| ≤ tol))
  ∧ (∀ (u : Vec) (L : ℕ), assert_equal_vector u (zeroVec L) tol = true ↔
      (u.length = L ∧ ∀ v ∈ u, |v| ≤ tol)) := by
  refine ⟨?_, fun A B => assert_equal_matrix_iff A B tol,
    fun u L => assert_equal_vector_zero_iff u L tol⟩
  simp only [testFactorJacobians, hlin, jacobianUnweighted]

/-- C4 witness: the cross-check characterization applied to a concrete factor
whose linearization is defined. -/
theorem testFactorJacobians_spec_witness :
    facC4.linearize 0 = some jfC4
  ∧ ((testFactorJacobians opsOne facC4 0 1 1
      = some (assert_equal_matrix (jacobianUnweighted jfC4).1
            (jacobianUnweighted
              (computeNumericalDerivativeJacobianFactor opsOne facC4 0 1)).1 1,
          assert_equal_vector jfC4.rhs (zeroVec jfC4.rhs.length) 1,
          assert_equal_vector
            (computeNumericalDerivativeJacobianFactor opsOne facC4 0 1).rhs
            (zeroVec jfC4.rhs.length) 1))
    ∧ (∀ A B : Mat, assert_equal_matrix A B 1 = true ↔
        (A.length = B.length ∧ ∀ p ∈ List.zip A B,
          p.1.length = p.2.length ∧ ∀ q ∈ List.zip p.1 p.2, |q.1 - q.2| ≤ 1))
    ∧ (∀ (u : Vec) (L : ℕ), assert_equal_vector u (zeroVec L) 1 = true ↔
        (u.length = L ∧ ∀ v ∈ u, |v| ≤ 1))) :=
  ⟨rfl, testFactorJacobians_spec opsOne facC4 0 1 1 jfC4 rfl⟩

/-- C2 counterexample: constructing through the two-variable specialization
`ExpressionFactor2` with no noise model, or with a noise model of the wrong
dimension, does not throw — the constructor performs no validation, since the
`initialize` call is left to the derived class. -/
theorem expressionFactor2_ctor_counterexample :
    mkExpressionFactor2 0 1 (none : Option NoiseModelL) (0 : ℚ)
      = Except.ok { noiseModel := none, measured := 0, keys := [0, 1] }
  ∧ mkExpressionFactor2 0 1 (some nmWrongDim) (0 : ℚ)
      = Except.ok { noiseModel := some nmWrongDim, measured := 0,
                    keys := [0, 1] } :=
  ⟨rfl, rfl⟩

/-- C2 (amended): the public `ExpressionFactor` constructor throws at
construction time when the noise model is missing or mis-dimensioned and
succeeds otherwise; the `ExpressionFactor2` constructor itself performs no
validation and always succeeds — the checks run only at the `initialize` call
the derived class must make (before any evaluation, but after the
`ExpressionFactor2` constructor returns). -/
theorem expressionFactor_construction :
    (∀ (T V : Type) (tr : ManifoldTraits T) (m : T) (e : ExpressionL T V)
        (act : V → Bool),
      mkExpressionFactor tr none m e act
        = Except.error "ExpressionFactor: no NoiseModel.")
  ∧ (∀ (T V : Type) (tr : ManifoldTraits T) (nm : NoiseModelL) (m : T)
        (e : ExpressionL T V) (act : V → Bool), nm.dim ≠ tr.dim →
      mkExpressionFactor tr (some nm) m e act
        = Except.error
            "ExpressionFactor was created with a NoiseModel of incorrect dimension.")
  ∧ (∀ (T V : Type) (tr : ManifoldTraits T) (nm : NoiseModelL) (m : T)
        (e : ExpressionL T V) (act : V → Bool), nm.dim = tr.dim →
      mkExpressionFactor tr (some nm) m e act
        = Except.ok { measured := m, expression := e,
                      keys := e.keysAndDims.1, dims := e.keysAndDims.2,
                      noiseModel := nm, active := act })
  ∧ (∀ (T : Type) (key1 key2 : Key) (nm : Option NoiseModelL) (m : T),
      mkExpressionFactor2 key1 key2 nm m
        = Except.ok { noiseModel := nm, measured := m, keys := [key1, key2] })
  ∧ (∀ (T V : Type) (tr : ManifoldTraits T) (key1 key2 : Key) (m : T)
        (e : ExpressionL T V) (act : V → Bool),
      (do
        let pre ← mkExpressionFactor2 key1 key2 (none : Option NoiseModelL) m
        initializeFactor tr pre e act)
        = Except.error "ExpressionFactor: no NoiseModel.") := by
  refine ⟨?_, ?_, ?_, ?_, ?_⟩
  · intro T V tr m e act
    rfl
  · intro T V tr nm m e act h
    simp [mkExpressionFactor, initializeFactor, h]
  · intro T V tr nm m e act h
    simp [mkExpressionFactor, initializeFactor, h]
  · intro T key1 key2 nm m
    rfl
  · intro T V tr key1 key2 m e act
    rfl

/-- C2 witness: the construction characterization applied to the concrete
mis-dimensioned and correctly dimensioned noise models. -/
theorem expressionFactor_construction_witness :
    nmWrongDim.dim ≠ tr1.dim
  ∧ mkExpressionFactor tr1 (some nmWrongDim) (0 : ℚ) idExpr (fun _ => true)
      = Except.error
          "ExpressionFactor was created with a NoiseModel of incorrect dimension."
  ∧ unitNM.dim = tr1.dim
  ∧ mkExpressionFactor tr1 (some unitNM) (0 : ℚ) idExpr (fun _ => true)
      = Except.ok { measured := 0, expression := idExpr,
                    keys := idExpr.keysAndDims.1, dims := idExpr.keysAndDims.2,
                    noiseModel := unitNM, active := fun _ => true } :=
  ⟨by decide,
   expressionFactor_construction.2.1 ℚ ℚ tr1 nmWrongDim 0 idExpr
     (fun _ => true) (by decide),
   rfl,
   expressionFactor_construction.2.2.1 ℚ ℚ tr1 unitNM 0 idExpr
     (fun _ => true) rfl⟩

/-- C3 (amended): when the factor is active, `linearize` assembles the
Jacobian blocks and the right-hand side and whitens them — the right-hand-side
column included — with the original noise model's `WhitenSystem`, whether or
not that model is constrained; the constrained model's designated unit
weighting is not used for whitening but is attached to the returned system as
its noise model, exactly when the model reports being constrained. When the
model is not constrained, the result coincides with the claim's unit-weighting
reading `linearizeClaimC3`. -/
theorem linearize_whitening {T V : Type} (tr : ManifoldTraits T)
    (f : ExpressionFactorL T V) (x : V) (hact : f.active x = true) :
    (let Ab1 := (f.expression.valueAndJacobianMap x).2.foldl
        (fun Ab km => addJacobianUpdate Ab km.1 km.2)
        ((List.zip f.keys f.dims).map fun kd => (kd.1, zeroMat tr.dim kd.2));
      let rhs := vecNeg
        (tr.Local f.measured (f.expression.valueAndJacobianMap x).1);
      let wAb := (f.noiseModel.whitenSystem
        ((Ab1.map Prod.snd).flatten ++ [rhs]) rhs).1;
      f.linearize tr x
        = some { blocks := List.zip (Ab1.map Prod.fst) (splitCols f.dims wAb),
                 rhs := (wAb.drop f.dims.sum).headD [],
                 model := if f.noiseModel.isConstrained
                   then some f.noiseModel.unit else none })
  ∧ (f.noiseModel.isConstrained = false →
      f.linearize tr x = linearizeClaimC3 tr f x) := by
  constructor
  · simp only [ExpressionFactorL.linearize, hact, if_true]
  · intro hcon
    simp only [ExpressionFactorL.linearize, linearizeClaimC3, hact, if_true,
      hcon, Bool.false_eq_true, if_false]

/-- C3 witness: the amended characterization applied to the concrete
constrained factor `facC3` at the point `3`. -/
theorem linearize_whitening_witness :
    facC3.active 3 = true
  ∧ ((let Ab1 := (facC3.expression.valueAndJacobianMap 3).2.foldl
        (fun Ab km => addJacobianUpdate Ab km.1 km.2)
        ((List.zip facC3.keys facC3.dims).map fun kd =>
          (kd.1, zeroMat tr1.dim kd.2));
      let rhs := vecNeg
        (tr1.Local facC3.measured (facC3.expression.valueAndJacobianMap 3).1);
      let wAb := (facC3.noiseModel.whitenSystem
        ((Ab1.map Prod.snd).flatten ++ [rhs]) rhs).1;
      facC3.linearize tr1 3
        = some { blocks := List.zip (Ab1.map Prod.fst)
                   (splitCols facC3.dims wAb),
                 rhs := (wAb.drop facC3.dims.sum).headD [],
                 model := if facC3.noiseModel.isConstrained
                   then some facC3.noiseModel.unit else none })
    ∧ (facC3.noiseModel.isConstrained = false →
        facC3.linearize tr1 3 = linearizeClaimC3 tr1 facC3 3)) :=
  ⟨rfl, linearize_whitening tr1 facC3 3 rfl⟩

/-- C3 counterexample: for the constrained model `nmC3`, whose own whitening
doubles the system while its designated unit weighting is the identity,
`linearize` returns the doubled block `[[2]]` and right-hand side `[-4]` —
the original model's whitening — whereas the claim's unit-weighting reading
`linearizeClaimC3` returns block `[[1]]` and right-hand side `[-2]`. -/
theorem linearize_constrained_counterexample :
    ((facC3.linearize tr1 3).map fun jf => jf.rhs) = some [-4]
  ∧ ((facC3.linearize tr1 3).map fun jf => jf.blocks) = some [(0, [[2]])]
  ∧ ((linearizeClaimC3 tr1 facC3 3).map fun jf => jf.rhs) = some [-2]
  ∧ ((linearizeClaimC3 tr1 facC3 3).map fun jf => jf.blocks)
      = some [(0, [[1]])]
  ∧ (some [(-4 : ℚ)] ≠ some [(-2 : ℚ)])
  ∧ facC3.noiseModel.isConstrained = true := by
  refine ⟨?_, ?_, ?_, ?_, by norm_num, rfl⟩ <;>
    norm_num [ExpressionFactorL.linearize, linearizeClaimC3, facC3, nmC3, tr1,
      idExpr, addJacobianUpdate, matAddInto, vecAddInto, zeroMat, zeroVec,
      vecNeg, splitCols, List.range_succ, List.range_zero, Function.comp]

/-- C8: `unwhitenedError` is `Local(measurement, predicted_value)` with the
predicted value the expression's value at the assignment; and for the factor
measuring `h(x) = x` against measurement `z` over the Euclidean chart with the
unit noise model, `unwhitenedError` equals `x - z` while `linearize` returns
the single identity Jacobian block with right-hand side `z - x`. -/
theorem unwhitenedError_local :
    (∀ (T V : Type) (tr : ManifoldTraits T) (f : ExpressionFactorL T V)
        (x : V),
      (f.unwhitenedError tr x false).1
        = tr.Local f.measured (f.expression.value x))
  ∧ (∀ x z : ℚ, (facC8 z).unwhitenedError tr1 x false = ([x - z], []))
  ∧ (∀ x z : ℚ, (facC8 z).linearize tr1 x
      = some { blocks := [(0, [[1]])], rhs := [z - x], model := none }) := by
  refine ⟨fun T V tr f x => rfl, fun x z => rfl, fun x z => ?_⟩
  simp [ExpressionFactorL.linearize, facC8, unitNM, idExpr, tr1,
    addJacobianUpdate, matAddInto, vecAddInto, zeroMat, zeroVec, vecNeg,
    splitCols, List.range_succ, List.range_zero, neg_sub]

theorem mapFind?_mapInsert_self {α : Type} (k : Key) (v : α)
    (m : List (Key × α)) :
    mapFind? k (mapInsert k v m) = some v := by
  induction m with
  | nil => simp [mapInsert, mapFind?]
  | cons kv rest ih =>
    obtain ⟨k', v'⟩ := kv
    by_cases h1 : k < k'
    · simp [mapInsert, h1, mapFind?]
    · by_cases h2 : k = k'
      · subst h2
        simp [mapInsert, h1, mapFind?]
      · simp [mapInsert, h1, h2, mapFind?, ih]

theorem mapFind?_mapInsert_ne {α : Type} (k k' : Key) (v : α)
    (m : List (Key × α)) (h : k ≠ k') :
    mapFind? k (mapInsert k' v m) = mapFind? k m := by
  induction m with
  | nil => simp [mapInsert, mapFind?, h]
  | cons kv rest ih =>
    obtain ⟨k'', v''⟩ := kv
    by_cases h1 : k' < k''
    · simp [mapInsert, h1, mapFind?, h]
    · by_cases h2 : k' = k''
      · subst h2
        simp [mapInsert, h1, mapFind?, h]
      · by_cases h3 : k = k''
        · subst h3
          simp [mapInsert, h1, h2, mapFind?]
        · simp [mapInsert, h1, h2, h3, mapFind?, ih]

theorem mapInsert_two_length {α : Type} (k0 k1 : Key) (x y : α)
    (h : k0 ≠ k1) :
    (mapInsert k1 y (mapInsert k0 x [])).length = 2 := by
  by_cases h1 : k1 < k0 <;> simp [mapInsert, h1, Ne.symm h]

/-- C10: `evaluateError` builds a fresh two-entry assignment mapping the
factor's first key to `a1` and its second key to `a2`, returns exactly the
error vector `unwhitenedError` produces on it, and always computes both
Jacobian blocks through the expression's derivative evaluation — also when
neither optional output `H1` nor `H2` is requested. -/
theorem evaluateError_spec {T A1 A2 : Type} (tr : ManifoldTraits T)
    (f : ExpressionFactorL T (Values2 A1 A2)) (a1 : A1) (a2 : A2)
    (w1 w2 : Bool) (hk : f.keys.getD 0 0 ≠ f.keys.getD 1 0) :
    ((f.evaluateError tr a1 a2 w1 w2).1
      = (f.unwhitenedError tr
          (mapInsert (f.keys.getD 1 0) (Sum.inr a2)
            (mapInsert (f.keys.getD 0 0) (Sum.inl a1) [])) true).1)
  ∧ ((f.evaluateError tr a1 a2 w1 w2).1
      = tr.Local f.measured
          (f.expression.valueAndDerivatives
            (mapInsert (f.keys.getD 1 0) (Sum.inr a2)
              (mapInsert (f.keys.getD 0 0) (Sum.inl a1) []))
            f.keys f.dims).1)
  ∧ ((f.evaluateError tr a1 a2 w1 w2).2.1
      = if w1 then
          some ((f.expression.valueAndDerivatives
            (mapInsert (f.keys.getD 1 0) (Sum.inr a2)
              (mapInsert (f.keys.getD 0 0) (Sum.inl a1) []))
            f.keys f.dims).2.getD 0 [])
        else none)
  ∧ ((f.evaluateError tr a1 a2 w1 w2).2.2
      = if w2 then
          some ((f.expression.valueAndDerivatives
            (mapInsert (f.keys.getD 1 0) (Sum.inr a2)
              (mapInsert (f.keys.getD 0 0) (Sum.inl a1) []))
            f.keys f.dims).2.getD 1 [])
        else none)
  ∧ mapFind? (f.keys.getD 0 0)
      (mapInsert (f.keys.getD 1 0) (Sum.inr a2)
        (mapInsert (f.keys.getD 0 0) (Sum.inl a1) [])) = some (Sum.inl a1)
  ∧ mapFind? (f.keys.getD 1 0)
      (mapInsert (f.keys.getD 1 0) (Sum.inr a2)
        (mapInsert (f.keys.getD 0 0) (Sum.inl a1) [])) = some (Sum.inr a2)
  ∧ (mapInsert (f.keys.getD 1 0) (Sum.inr a2)
      (mapInsert (f.keys.getD 0 0) (Sum.inl a1) [])).length = 2 := by
  refine ⟨rfl, rfl, rfl, rfl, ?_, ?_, ?_⟩
  · rw [mapFind?_mapInsert_ne _ _ _ _ hk, mapFind?_mapInsert_self]
  · exact mapFind?_mapInsert_self ..
  · exact mapInsert_two_length _ _ _ _ hk

/-- C10 witness: the `evaluateError` characterization applied to the concrete
binary factor with neither derivative output requested. -/
theorem evaluateError_spec_witness :
    facC10.keys.getD 0 0 ≠ facC10.keys.getD 1 0
  ∧ (((facC10.evaluateError tr1 5 7 false false).1
      = (facC10.unwhitenedError tr1
          (mapInsert (facC10.keys.getD 1 0) (Sum.inr 7)
            (mapInsert (facC10.keys.getD 0 0) (Sum.inl 5) [])) true).1)
    ∧ ((facC10.evaluateError tr1 5 7 false false).1
        = tr1.Local facC10.measured
            (facC10.expression.valueAndDerivatives
              (mapInsert (facC10.keys.getD 1 0) (Sum.inr 7)
                (mapInsert (facC10.keys.getD 0 0) (Sum.inl 5) []))
              facC10.keys facC10.dims).1)
    ∧ ((facC10.evaluateError tr1 5 7 false false).2.1
        = if false then
            some ((facC10.expression.valueAndDerivatives
              (mapInsert (facC10.keys.getD 1 0) (Sum.inr 7)
                (mapInsert (facC10.keys.getD 0 0) (Sum.inl 5) []))
              facC10.keys facC10.dims).2.getD 0 [])
          else none)
    ∧ ((facC10.evaluateError tr1 5 7 false false).2.2
        = if false then
            some ((facC10.expression.valueAndDerivatives
              (mapInsert (facC10.keys.getD 1 0) (Sum.inr 7)
                (mapInsert (facC10.keys.getD 0 0) (Sum.inl 5) []))
              facC10.keys facC10.dims).2.getD 1 [])
          else none)
    ∧ mapFind? (facC10.keys.getD 0 0)
        (mapInsert (facC10.keys.getD 1 0) (Sum.inr 7 : ℚ ⊕ ℚ)
          (mapInsert (facC10.keys.getD 0 0) (Sum.inl 5) []))
        = some (Sum.inl 5)
    ∧ mapFind? (facC10.keys.getD 1 0)
        (mapInsert (facC10.keys.getD 1 0) (Sum.inr 7 : ℚ ⊕ ℚ)
          (mapInsert (facC10.keys.getD 0 0) (Sum.inl 5) []))
        = some (Sum.inr 7)
    ∧ (mapInsert (facC10.keys.getD 1 0) (Sum.inr 7 : ℚ ⊕ ℚ)
        (mapInsert (facC10.keys.getD 0 0) (Sum.inl 5) [])).length = 2) :=
  ⟨by decide, evaluateError_spec tr1 facC10 5 7 false false (by decide)⟩

theorem vecAddInto_length (tgt src : Vec) :
    (vecAddInto tgt src).length = tgt.length := by
  simp [vecAddInto]

theorem matAddInto_length (tgt src : Mat) :
    (matAddInto tgt src).length = tgt.length := by
  simp [matAddInto]

theorem matAddInto_cols (tgt src : Mat) (n : ℕ)
    (h : ∀ c ∈ tgt, c.length = n) :
    ∀ c ∈ matAddInto tgt src, c.length = n := by
  intro c hc
  simp only [matAddInto, List.mem_map, List.mem_range] at hc
  obtain ⟨j, hj, rfl⟩ := hc
  rw [vecAddInto_length, List.getD_eq_getElem _ _ hj]
  exact h _ (List.getElem_mem hj)

theorem shapedAb_add (n : ℕ) (ks : List Key) (ds : List ℕ)
    (Ab : List (Key × Mat)) (k : Key) (M : Mat) (h : ShapedAb n ks ds Ab) :
    ShapedAb n ks ds (addJacobianUpdate Ab k M) := by
  obtain ⟨h1, h2, h3⟩ := h
  refine ⟨?_, ?_, ?_⟩
  · rw [← h1, addJacobianUpdate, List.map_map]
    apply List.map_congr_left
    intro kv _
    by_cases hk : kv.1 = k <;> simp [hk]
  · rw [← h2, addJacobianUpdate, List.map_map]
    apply List.map_congr_left
    intro kv _
    by_cases hk : kv.1 = k <;> simp [hk, matAddInto_length]
  · intro km hkm c hc
    simp only [addJacobianUpdate, List.mem_map] at hkm
    obtain ⟨kv, hkv, hkm'⟩ := hkm
    by_cases hk : kv.1 = k
    · rw [if_pos hk] at hkm'
      subst hkm'
      exact matAddInto_cols _ _ _ (h3 kv hkv) c hc
    · rw [if_neg hk] at hkm'
      subst hkm'
      exact h3 kv hkv c hc

theorem shapedAb_foldl (n : ℕ) (ks : List Key) (ds : List ℕ)
    (updates : List (Key × Mat)) (Ab : List (Key × Mat))
    (h : ShapedAb n ks ds Ab) :
    ShapedAb n ks ds
      (updates.foldl (fun Ab km => addJacobianUpdate Ab km.1 km.2) Ab) := by
  induction updates generalizing Ab with
  | nil => exact h
  | cons u us ih => exact ih _ (shapedAb_add n ks ds Ab u.1 u.2 h)

theorem shapedAb_init (n : ℕ) (ks : List Key) (ds : List ℕ)
    (hlen : ks.length = ds.length) :
    ShapedAb n ks ds
      ((List.zip ks ds).map fun kd => (kd.1, zeroMat n kd.2)) := by
  refine ⟨?_, ?_, ?_⟩
  · rw [List.map_map]
    exact List.map_fst_zip ks ds (le_of_eq hlen)
  · rw [List.map_map]
    have h2 : ((fun km : Key × Mat => km.2.length) ∘
        fun kd : Key × ℕ => (kd.1, zeroMat n kd.2)) = Prod.snd := by
      funext kd
      simp [zeroMat]
    rw [h2]
    exact List.map_snd_zip ks ds (le_of_eq hlen.symm)
  · intro km hkm c hc
    simp only [List.mem_map] at hkm
    obtain ⟨kd, hkd, rfl⟩ := hkm
    simp only [zeroMat] at hc
    rw [List.eq_of_mem_replicate hc]
    simp [zeroVec]

theorem flatten_blocks_length (Ab : List (Key × Mat)) (ds : List ℕ)
    (h : Ab.map (fun km => km.2.length) = ds) :
    ((Ab.map Prod.snd).flatten).length = ds.sum := by
  rw [List.length_flatten, List.map_map]
  rw [show (List.length ∘ (Prod.snd : Key × Mat → Mat))
    = fun km : Key × Mat => km.2.length from rfl, h]

theorem abmat_cols (Ab : List (Key × Mat)) (rhs : Vec) (n : ℕ)
    (hAb : ∀ km ∈ Ab, ∀ c ∈ km.2, c.length = n) (hrhs : rhs.length = n) :
    ∀ c ∈ (Ab.map Prod.snd).flatten ++ [rhs], c.length = n := by
  intro c hc
  rcases List.mem_append.mp hc with hc | hc
  · rw [List.mem_flatten] at hc
    obtain ⟨M, hM, hcM⟩ := hc
    rw [List.mem_map] at hM
    obtain ⟨km, hkm, rfl⟩ := hM
    exact hAb km hkm c hcM
  · rw [List.mem_singleton] at hc
    subst hc
    exact hrhs

theorem ws_cols (nm : NoiseModelL) (A : Mat) (b : Vec) (n : ℕ)
    (h : ∀ c ∈ A, c.length = n) :
    ∀ c ∈ (nm.whitenSystem A b).1, c.length = n := by
  intro c hc
  obtain ⟨j, hj, hEq⟩ := List.mem_iff_getElem.mp hc
  have hjA : j < A.length := nm.ws_len A b ▸ hj
  have hcol := nm.ws_col_len A b j hjA
  rw [List.getD_eq_getElem _ _ hj, List.getD_eq_getElem _ _ hjA] at hcol
  rw [← hEq, hcol]
  exact h _ (List.getElem_mem hjA)

theorem splitCols_length (ds : List ℕ) (cols : Mat) :
    (splitCols ds cols).length = ds.length := by
  induction ds generalizing cols with
  | nil => rfl
  | cons d ds ih => simp [splitCols, ih]

theorem splitCols_widths (ds : List ℕ) (cols : Mat)
    (h : ds.sum ≤ cols.length) :
    (splitCols ds cols).map List.length = ds := by
  induction ds generalizing cols with
  | nil => rfl
  | cons d ds ih =>
    rw [List.sum_cons] at h
    simp only [splitCols, List.map_cons]
    congr 1
    · rw [List.length_take]
      omega
    · apply ih
      rw [List.length_drop]
      omega

theorem splitCols_sub (ds : List ℕ) (cols : Mat) :
    ∀ M ∈ splitCols ds cols, ∀ c ∈ M, c ∈ cols := by
  induction ds generalizing cols with
  | nil =>
    intro M hM
    cases hM
  | cons d ds ih =>
    intro M hM c hc
    rcases List.mem_cons.mp hM with rfl | hM
    · exact List.take_subset _ _ hc
    · exact List.drop_subset _ _ (ih _ M hM c hc)

theorem headD_drop (l : Mat) (k : ℕ) (hk : k < l.length) :
    (l.drop k).headD [] = l[k] := by
  rw [List.drop_eq_getElem_cons hk]
  rfl

/-- C9: `linearize` returns no factor exactly when the `active` predicate is
false at the assignment — a valid non-error outcome — and whenever the factor
is active it returns a complete linear system: one block per declared key in
declared order, each block with its declared column count, and every column
and the right-hand side of the factor's fixed output dimension. -/
theorem linearize_none_iff_inactive {T V : Type} (tr : ManifoldTraits T)
    (f : ExpressionFactorL T V) (x : V)
    (hlen : f.keys.length = f.dims.length) :
    (f.linearize tr x = none ↔ f.active x = false)
  ∧ (f.active x = true →
      ∃ jf, f.linearize tr x = some jf
        ∧ jf.blocks.map Prod.fst = f.keys
        ∧ jf.blocks.map (fun km => km.2.length) = f.dims
        ∧ (∀ km ∈ jf.blocks, ∀ c ∈ km.2, c.length = tr.dim)
        ∧ jf.rhs.length = tr.dim) := by
  constructor
  · cases hact : f.active x
    · simp [ExpressionFactorL.linearize, hact]
    · simp [ExpressionFactorL.linearize, hact]
  · intro hact
    simp only [ExpressionFactorL.linearize, hact, if_true]
    obtain ⟨hfst, hwid, hcols⟩ :
        ShapedAb tr.dim f.keys f.dims
          ((f.expression.valueAndJacobianMap x).2.foldl
            (fun Ab km => addJacobianUpdate Ab km.1 km.2)
            ((List.zip f.keys f.dims).map fun kd =>
              (kd.1, zeroMat tr.dim kd.2))) :=
      shapedAb_foldl _ _ _ _ _ (shapedAb_init _ _ _ hlen)
    set Ab1 := (f.expression.valueAndJacobianMap x).2.foldl
      (fun Ab km => addJacobianUpdate Ab km.1 km.2)
      ((List.zip f.keys f.dims).map fun kd => (kd.1, zeroMat tr.dim kd.2))
      with hAb1
    set rhs0 := vecNeg
      (tr.Local f.measured (f.expression.valueAndJacobianMap x).1) with hrhs0
    have hrhs0len : rhs0.length = tr.dim := by
      rw [hrhs0, vecNeg, List.length_map, tr.local_len]
    set AbMat := (Ab1.map Prod.snd).flatten ++ [rhs0] with hAbMat
    have hflat : ((Ab1.map Prod.snd).flatten).length = f.dims.sum :=
      flatten_blocks_length Ab1 f.dims hwid
    have hAbMatLen : AbMat.length = f.dims.sum + 1 := by
      rw [hAbMat, List.length_append, hflat]
      rfl
    set wAb := (f.noiseModel.whitenSystem AbMat rhs0).1 with hwAb
    have hwAbLen : wAb.length = f.dims.sum + 1 := by
      rw [hwAb, f.noiseModel.ws_len, hAbMatLen]
    have hwAbCols : ∀ c ∈ wAb, c.length = tr.dim :=
      ws_cols f.noiseModel AbMat rhs0 tr.dim
        (abmat_cols Ab1 rhs0 tr.dim hcols hrhs0len)
    have hsumle : f.dims.sum ≤ wAb.length := by omega
    have hsplitLen : (splitCols f.dims wAb).length = f.dims.length :=
      splitCols_length f.dims wAb
    have hfstLen : (Ab1.map Prod.fst).length = f.keys.length := by
      rw [hfst]
    refine ⟨_, rfl, ?_, ?_, ?_, ?_⟩
    · rw [List.map_fst_zip _ _ (by omega), hfst]
    · rw [show (fun km : Key × Mat => km.2.length)
        = List.length ∘ (Prod.snd : Key × Mat → Mat) from rfl,
        ← List.map_map, List.map_snd_zip _ _ (by omega),
        splitCols_widths f.dims wAb hsumle]
    · intro km hkm c hc
      have hsnd : km.2 ∈ splitCols f.dims wAb := (List.of_mem_zip hkm).2
      exact hwAbCols c (splitCols_sub f.dims wAb km.2 hsnd c hc)
    · have hk : f.dims.sum < wAb.length := by omega
      rw [headD_drop wAb f.dims.sum hk]
      exact hwAbCols _ (List.getElem_mem hk)

/-- C9 witness: the characterization applied to the concrete identity factor,
which is active everywhere. -/
theorem linearize_none_iff_inactive_witness :
    (facC8 0).keys.length = (facC8 0).dims.length
  ∧ ((((facC8 0).linearize tr1 5 = none ↔ (facC8 0).active 5 = false))
    ∧ ((facC8 0).active 5 = true →
        ∃ jf, (facC8 0).linearize tr1 5 = some jf
          ∧ jf.blocks.map Prod.fst = (facC8 0).keys
          ∧ jf.blocks.map (fun km => km.2.length) = (facC8 0).dims
          ∧ (∀ km ∈ jf.blocks, ∀ c ∈ km.2, c.length = tr1.dim)
          ∧ jf.rhs.length = tr1.dim)) :=
  ⟨rfl, linearize_none_iff_inactive tr1 (facC8 0) 5 rfl⟩

end Gtsam
